import Mathlib

/-!
Verification of the propositional-logic lexer/parser/AST repository.

The definitions below are a shallow embedding of `src/AST.py` and
`src/Parser.py`.  Machine-level details that Lean cannot express directly are
modelled as follows: Python exceptions become `Except` errors, the mutable
token list consumed by `pop(0)` becomes explicit list passing, and general
recursion (the lexer's scanning loop and the mutually recursive descent
parser) is embedded with an explicit fuel parameter so that every definition
is structurally recursive and computable by the kernel.  `parse` supplies
fuel that is ample for its input, so the fuel never changes the observable
behaviour on the concrete runs below.
-/

deriving instance DecidableEq for Except

namespace PL

/-- Token types, mirroring class `TType` of `src/Parser.py`. -/
inductive TType where
  | TTRUE
  | TFALSE
  | TNOT
  | TAND
  | TOR
  | TARROW
  | TVAR
  | TLPAREN
  | TRPAREN
  | TEOF
  deriving DecidableEq

/-- Tokens, mirroring class `Token` of `src/Parser.py`. -/
structure Token where
  ttype : TType
  pos : Nat
  val : String
  deriving DecidableEq

/-- Mirrors `LexException` of `src/Exceptions.py` (fields `line`, `got`). -/
structure LexException where
  line : Nat
  got : Char
  deriving DecidableEq

/-- Mirrors `ParseException` of `src/Exceptions.py`
(fields `line`, `expected`, `got`). -/
structure ParseException where
  line : Nat
  expected : List TType
  got : String
  deriving DecidableEq

/-- Mirrors `EvalException` of `src/Exceptions.py` (field `node`). -/
structure EvalException where
  node : String
  deriving DecidableEq

/-- The expression tree: the six node classes of `src/AST.py`
(`And`, `Or`, `Arrow`, `Not`, `Lit`, `Var`) collapse into one sum type. -/
inductive Expr where
  | And (lhs rhs : Expr)
  | Or (lhs rhs : Expr)
  | Arrow (lhs rhs : Expr)
  | Not (lhs : Expr)
  | Lit (val : Bool)
  | Var (name : String)
  deriving DecidableEq

/-- Node tags, mirroring class `Node` of `src/AST.py`. -/
inductive Node where
  | ARROW
  | OR
  | AND
  | NOT
  | LIT
  | VAR
  deriving DecidableEq

/-- The `type()` method of each node class of `src/AST.py`. -/
def Expr.type : Expr → Node
  | .And _ _ => .AND
  | .Or _ _ => .OR
  | .Arrow _ _ => .ARROW
  | .Not _ => .NOT
  | .Lit _ => .LIT
  | .Var _ => .VAR

/-- `true()` of `src/AST.py`. -/
def true_ : Expr := .Lit true

/-- `false()` of `src/AST.py`. -/
def false_ : Expr := .Lit false

/-- The `eval(env)` methods of `src/AST.py`: every node class raises
`EvalException` with its class name, unconditionally. -/
def Expr.eval : Expr → (String → Option Bool) → Except EvalException Bool
  | .And _ _, _ => .error ⟨"And"⟩
  | .Or _ _, _ => .error ⟨"Or"⟩
  | .Arrow _ _, _ => .error ⟨"Arrow"⟩
  | .Not _, _ => .error ⟨"Not"⟩
  | .Lit _, _ => .error ⟨"Lit"⟩
  | .Var _, _ => .error ⟨"Var"⟩

/-- The `__eq__` methods of `src/AST.py`.  Each class first compares
`self.type()` with `other.type()` (so operands of different variants compare
unequal without touching fields) and then compares the fields recursively;
the variant match below is exactly that type-tag guard. -/
def Expr.eq : Expr → Expr → Bool
  | .And l r, .And l2 r2 => Expr.eq l l2 && Expr.eq r r2
  | .Or l r, .Or l2 r2 => Expr.eq l l2 && Expr.eq r r2
  | .Arrow l r, .Arrow l2 r2 => Expr.eq l l2 && Expr.eq r r2
  | .Not l, .Not l2 => Expr.eq l l2
  | .Lit v, .Lit v2 => v == v2
  | .Var n, .Var n2 => n == n2
  | _, _ => false

/-- The `vars()` methods of `src/AST.py`; Python's `set` becomes `Finset`. -/
def Expr.vars : Expr → Finset String
  | .And l r => l.vars ∪ r.vars
  | .Or l r => l.vars ∪ r.vars
  | .Arrow l r => l.vars ∪ r.vars
  | .Not l => l.vars
  | .Lit _ => ∅
  | .Var n => {n}

/-- `alpha(c)` of `src/Parser.py`. -/
def alpha (c : Char) : Bool :=
  ('a' ≤ c && c ≤ 'z') || ('A' ≤ c && c ≤ 'Z')

/-- One iteration of the scanning loop of `lex` in `src/Parser.py`, acting on
the current character `c`, the remaining characters `rest` and the loop index
`i`; `k` is the rest of the loop (the recursive call). -/
def lexStep (k : List Char → Nat → Except LexException (List Token))
    (c : Char) (rest : List Char) (i : Nat) : Except LexException (List Token) :=
  if c = ' ' ∨ c = '\r' ∨ c = '\n' ∨ c = '\t' then
    k rest (i + 1)
  else if c = 'T' then
    (k rest (i + 1)).map (⟨.TTRUE, i, "T"⟩ :: ·)
  else if c = 'F' then
    (k rest (i + 1)).map (⟨.TFALSE, i, "F"⟩ :: ·)
  else if c = '~' then
    (k rest (i + 1)).map (⟨.TNOT, i, "~"⟩ :: ·)
  else if c = '(' then
    (k rest (i + 1)).map (⟨.TLPAREN, i, "("⟩ :: ·)
  else if c = ')' then
    (k rest (i + 1)).map (⟨.TRPAREN, i, ")"⟩ :: ·)
  else if c = '|' ∧ rest.head? = some '|' then
    (k rest.tail (i + 2)).map (⟨.TOR, i, "||"⟩ :: ·)
  else if c = '&' ∧ rest.head? = some '&' then
    (k rest.tail (i + 2)).map (⟨.TAND, i, "&&"⟩ :: ·)
  else if c = '-' ∧ rest.head? = some '>' then
    (k rest.tail (i + 2)).map (⟨.TARROW, i, "->"⟩ :: ·)
  else if alpha c then
    (k (rest.dropWhile alpha) (i + 1 + (rest.takeWhile alpha).length)).map
      (⟨.TVAR, i, ⟨c :: rest.takeWhile alpha⟩⟩ :: ·)
  else .error ⟨i, c⟩

/-- The scanning loop of `lex` in `src/Parser.py`.  The loop index `i` is the
`Nat` argument; the unscanned characters are the list; the fuel (first
argument) only bounds the number of loop iterations and is never exhausted
when called through `lex`. -/
def lexAux : Nat → List Char → Nat → Except LexException (List Token)
  | _, [], i => .ok [⟨.TEOF, i, "<EOF>"⟩]
  | 0, c :: _, i => .error ⟨i, c⟩
  | fuel + 1, c :: rest, i => lexStep (lexAux fuel) c rest i

/-- `lex(text)` of `src/Parser.py`.  Each loop iteration consumes at least one
character, so `text.length + 1` iterations always suffice. -/
def lex (text : String) : Except LexException (List Token) :=
  lexAux (text.length + 1) text.toList 0

/-- The local `follow` list of `expr` (`src/Parser.py` line 99). -/
def followExpr : List TType := [.TEOF, .TRPAREN]

/-- The local `follow` list of `or_expr` (`src/Parser.py` line 110). -/
def followOr : List TType := [.TEOF, .TRPAREN, .TARROW]

/-- The local `follow` list of `and_expr` (`src/Parser.py` line 121). -/
def followAnd : List TType := [.TEOF, .TRPAREN, .TARROW, .TOR]

/-- The local `follow` list of `not_expr` (`src/Parser.py` line 133). -/
def followNot : List TType := [.TEOF, .TRPAREN, .TARROW, .TOR, .TAND]

/-- The local `follow` list of `term` (`src/Parser.py` line 147). -/
def followTerm : List TType := [.TEOF, .TRPAREN, .TARROW, .TOR, .TAND]

/-- The local `first` list of `term` (`src/Parser.py` line 146). -/
def firstTerm : List TType := [.TTRUE, .TFALSE, .TVAR, .TLPAREN]

/-- Reading `tokens[0]` without consuming it.  Python would crash with an
`IndexError` on an empty list (which cannot happen for `lex` output, whose
EOF sentinel is never popped); the embedding returns an error value there. -/
def peek : List Token → Except ParseException Token
  | [] => .error ⟨0, [], ""⟩
  | t :: _ => .ok t

/-- The trailing follow-set check appearing at the end of every parser level
of `src/Parser.py`: accept when the next token's type is in `follow`,
otherwise raise `ParseException(pos, follow, val)`. -/
def followCheck (follow : List TType) (e : Expr) (ts : List Token) :
    Except ParseException (Expr × List Token) :=
  match ts with
  | [] => .error ⟨0, [], ""⟩
  | u :: _ =>
    if u.ttype ∈ follow then .ok (e, ts)
    else .error ⟨u.pos, follow, u.val⟩

/-- Names for the five mutually recursive parser functions of
`src/Parser.py` (`expr`, `or_expr`, `and_expr`, `not_expr`, `term`) plus the
two `while` loops inside `or_expr` and `and_expr`, which carry their
accumulated left-hand side. -/
inductive PFun where
  | pExpr
  | pOr
  | pOrLoop (lhs : Expr)
  | pAnd
  | pAndLoop (lhs : Expr)
  | pNot
  | pTerm
  deriving DecidableEq

/-- One layer of the recursive-descent parser of `src/Parser.py`; `k` stands
for the recursive calls (one fuel level down).  `pExpr`, `pOr`, `pAnd`,
`pNot`, `pTerm` are the functions `expr`, `or_expr`, `and_expr`, `not_expr`,
`term`; `pOrLoop`/`pAndLoop` are the `while` loops inside `or_expr` and
`and_expr`. -/
def parseStep (k : PFun → List Token → Except ParseException (Expr × List Token)) :
    PFun → List Token → Except ParseException (Expr × List Token)
  | .pExpr, tokens => do
    let (lhs0, ts1) ← k .pOr tokens
    let t ← peek ts1
    if t.ttype = .TARROW then
      let (rhs, ts2) ← k .pExpr ts1.tail
      followCheck followExpr (.Arrow lhs0 rhs) ts2
    else
      followCheck followExpr lhs0 ts1
  | .pOr, tokens => do
    let (lhs, ts1) ← k .pAnd tokens
    let (lhs2, ts2) ← k (.pOrLoop lhs) ts1
    followCheck followOr lhs2 ts2
  | .pOrLoop lhs, tokens => do
    let t ← peek tokens
    if t.ttype = .TOR then
      let (rhs, ts1) ← k .pAnd tokens.tail
      k (.pOrLoop (.Or lhs rhs)) ts1
    else
      pure (lhs, tokens)
  | .pAnd, tokens => do
    let (lhs, ts1) ← k .pNot tokens
    let (lhs2, ts2) ← k (.pAndLoop lhs) ts1
    followCheck followAnd lhs2 ts2
  | .pAndLoop lhs, tokens => do
    let t ← peek tokens
    if t.ttype = .TAND then
      let (rhs, ts1) ← k .pNot tokens.tail
      k (.pAndLoop (.And lhs rhs)) ts1
    else
      pure (lhs, tokens)
  | .pNot, tokens => do
    let t ← peek tokens
    if t.ttype = .TNOT then
      let (ne, ts1) ← k .pNot tokens.tail
      followCheck followNot (.Not ne) ts1
    else
      let (e, ts1) ← k .pTerm tokens
      followCheck followNot e ts1
  | .pTerm, tokens => do
    let t ← peek tokens
    if t.ttype = .TVAR then
      followCheck followTerm (.Var t.val) tokens.tail
    else if t.ttype = .TTRUE then
      followCheck followTerm true_ tokens.tail
    else if t.ttype = .TFALSE then
      followCheck followTerm false_ tokens.tail
    else if t.ttype = .TLPAREN then
      let (e, ts1) ← k .pExpr tokens.tail
      let u ← peek ts1
      if u.ttype = .TRPAREN then
        followCheck followTerm e ts1.tail
      else
        .error ⟨u.pos, [.TRPAREN], u.val⟩
    else
      .error ⟨t.pos, firstTerm, t.val⟩

/-- The recursive-descent parser of `src/Parser.py`, all levels bundled into
one fuel-indexed function (`PFun` selects the level).  Every recursive call
decreases the fuel by exactly one, and `parse` supplies ample fuel. -/
def parseRun : Nat → PFun → List Token → Except ParseException (Expr × List Token)
  | 0, _, _ => .error ⟨0, [], ""⟩
  | n + 1, f, tokens => parseStep (parseRun n) f tokens

/-- The two exceptions `parse` can raise. -/
inductive PError where
  | lexErr (e : LexException)
  | parseErr (e : ParseException)
  deriving DecidableEq

/-- `parse(text)` of `src/Parser.py`: lex, then run `expr` on the token list
and return its expression (the unconsumed remainder is discarded, exactly as
the Python `parse` returns `expr(lex(text))`). -/
def parse (text : String) : Except PError Expr :=
  match lex text with
  | .error e => .error (.lexErr e)
  | .ok tokens =>
    match parseRun (8 * text.length + 8) .pExpr tokens with
    | .error e => .error (.parseErr e)
    | .ok (e, _) => .ok e

/-- Modelled from the spec: the evaluation semantics of section 4.3, which is
missing from the source (every `eval` method of `src/AST.py` is a deliberate
stub raising `EvalException`; the spec states the intended semantics that the
truth-table driver consumes).  An unbound variable yields `none`. -/
def evalB : Expr → (String → Option Bool) → Option Bool
  | .And l r, env =>
    match evalB l env, evalB r env with
    | some a, some b => some (a && b)
    | _, _ => none
  | .Or l r, env =>
    match evalB l env, evalB r env with
    | some a, some b => some (a || b)
    | _, _ => none
  | .Arrow l r, env =>
    match evalB l env, evalB r env with
    | some a, some b => some (!a || b)
    | _, _ => none
  | .Not l, env =>
    match evalB l env with
    | some a => some (!a)
    | _ => none
  | .Lit v, _ => some v
  | .Var n, env => env n

/-- `rec_eval(e, vs, i, env)` of `src/AST.py`, with the printed rows collected
into a list: for each variable position `i` the `true` branch is enumerated
before the `false` branch, and at a leaf the row `(env values over vs, result)`
is produced.  The mutable dictionary becomes a functional update (observably
equal: every leaf reads only keys set on its own path), and the stubbed
`e.eval(env)` is replaced by the spec-modelled `evalB`. -/
def rec_eval (e : Expr) (vs : List String) (i : Nat) (env : String → Option Bool) :
    List (List (Option Bool) × Option Bool) :=
  if h : i < vs.length then
    rec_eval e vs (i + 1) (fun s => if s = vs[i] then some true else env s) ++
    rec_eval e vs (i + 1) (fun s => if s = vs[i] then some false else env s)
  else
    [(vs.map env, evalB e env)]
termination_by vs.length - i

/-- `sorted(list(e.vars()))` of `truth_table` in `src/AST.py`. -/
def sortedVars (e : Expr) : List String := (e.vars).sort (· ≤ ·)

/-- The rows of `truth_table(e)` of `src/AST.py` (header printing is pure
rendering and out of scope): enumerate over the lexicographically sorted
variable names starting from the empty environment. -/
def truth_table (e : Expr) : List (List (Option Bool) × Option Bool) :=
  rec_eval e (sortedVars e) 0 (fun _ => none)

/-- Reference enumeration order for truth-table assignments: for each
variable in order, the `true` branch in full before the `false` branch. -/
def assignRows : List String → List (List Bool)
  | [] => [[]]
  | _ :: vs => (assignRows vs).map (true :: ·) ++ (assignRows vs).map (false :: ·)

end PL

namespace PL

/-- Claim C1: for every expression node (And, Or, Arrow, Not, Lit, Var) and every
environment, calling `eval` raises a "not implemented" `EvalException`
unconditionally, rather than returning a boolean. -/
theorem eval_not_implemented (e : Expr) (env : String → Option Bool) :
    ∃ err : EvalException, e.eval env = Except.error err := by
  cases e <;> exact ⟨_, rfl⟩

/-- Claim C2: one lexer step tokenizes `'T'` and `'F'` as single-character
TRUE/FALSE literal tokens regardless of trailing letters (the trailing
characters `cs` are arbitrary), and a maximal alphabetic run producing a
VARIABLE token only starts at an alphabetic character that is not `'T'` or
`'F'`. -/
theorem lex_TF_single_char (fuel : Nat) (cs : List Char) (i : Nat) :
    lexAux (fuel + 1) ('T' :: cs) i = (lexAux fuel cs (i + 1)).map (⟨.TTRUE, i, "T"⟩ :: ·) ∧
    lexAux (fuel + 1) ('F' :: cs) i = (lexAux fuel cs (i + 1)).map (⟨.TFALSE, i, "F"⟩ :: ·) ∧
    ∀ c, alpha c = true → c ≠ 'T' → c ≠ 'F' →
      lexAux (fuel + 1) (c :: cs) i =
        (lexAux fuel (cs.dropWhile alpha) (i + 1 + (cs.takeWhile alpha).length)).map
          (⟨.TVAR, i, ⟨c :: cs.takeWhile alpha⟩⟩ :: ·) := by
  refine ⟨rfl, rfl, ?_⟩
  intro c hal hT hF
  have hws : ¬(c = ' ' ∨ c = '\r' ∨ c = '\n' ∨ c = '\t') := by
    rintro (rfl | rfl | rfl | rfl) <;> exact absurd hal (by decide)
  have htil : ¬(c = '~') := by rintro rfl; exact absurd hal (by decide)
  have hlp : ¬(c = '(') := by rintro rfl; exact absurd hal (by decide)
  have hrp : ¬(c = ')') := by rintro rfl; exact absurd hal (by decide)
  have hor : ¬(c = '|' ∧ cs.head? = some '|') := by
    rintro ⟨rfl, -⟩; exact absurd hal (by decide)
  have hand : ¬(c = '&' ∧ cs.head? = some '&') := by
    rintro ⟨rfl, -⟩; exact absurd hal (by decide)
  have harr : ¬(c = '-' ∧ cs.head? = some '>') := by
    rintro ⟨rfl, -⟩; exact absurd hal (by decide)
  simp only [lexAux, lexStep, if_neg hws, if_neg hT, if_neg hF, if_neg htil, if_neg hlp,
    if_neg hrp, if_neg hor, if_neg hand, if_neg harr, hal, if_pos]

/-- Witness for claim C2 at the concrete character `'a'` and empty rest. -/
theorem lex_TF_single_char_witness :
    lexAux 1 ['a'] 0 =
      (lexAux 0 (List.dropWhile alpha []) (0 + 1 + (List.takeWhile alpha []).length)).map
        (⟨.TVAR, 0, ⟨'a' :: List.takeWhile alpha []⟩⟩ :: ·) :=
  (lex_TF_single_char 0 [] 0).2.2 'a' (by decide) (by decide) (by decide)

/-- Counterexample to claim C3: lexing `"True"` produces TRUE then VARIABLE
`"rue"` then EOF, so its token-type sequence is not VARIABLE-then-EOF. -/
theorem lex_True_counterexample :
    lex "True" = .ok [⟨.TTRUE, 0, "T"⟩, ⟨.TVAR, 1, "rue"⟩, ⟨.TEOF, 4, "<EOF>"⟩] ∧
    (lex "True").map (List.map Token.ttype) ≠ .ok [TType.TVAR, TType.TEOF] := by
  refine ⟨by decide, by decide⟩

/-- Claim C3 (amended): lexing `"True"` produces a TRUE literal token at
offset 0, a VARIABLE token `"rue"` at offset 1, and EOF at offset 4 — not a
single VARIABLE token `"True"`. -/
theorem lex_True_amended :
    lex "True" = .ok [⟨.TTRUE, 0, "T"⟩, ⟨.TVAR, 1, "rue"⟩, ⟨.TEOF, 4, "<EOF>"⟩] := by
  decide

/-- Claim C4: implication is right-associative — parsing `"a->b->c"` yields
`Arrow(Var a, Arrow(Var b, Var c))`. -/
theorem parse_arrow_right_assoc :
    parse "a->b->c" = .ok (.Arrow (.Var "a") (.Arrow (.Var "b") (.Var "c"))) := by
  decide

/-- Claim C5: `&&` binds above `||` above `->` with `~` tightest —
`parse "a||b&&c"` is `Or(Var a, And(Var b, Var c))` and `parse "~a&&b"` is
`And(Not(Var a), Var b)`. -/
theorem parse_precedence :
    parse "a||b&&c" = .ok (.Or (.Var "a") (.And (.Var "b") (.Var "c"))) ∧
    parse "~a&&b" = .ok (.And (.Not (.Var "a")) (.Var "b")) := by
  refine ⟨by decide, by decide⟩

/-- Claim C6: structural equality (the `__eq__` methods) is variant-and-shape
equality and order-sensitive in operands — `Expr.eq x y` holds iff `x` and
`y` have the same variant and recursively equal children in the same order,
and `And(Var a, Var b)` is not equal to `And(Var b, Var a)`. -/
theorem eq_variant_shape :
    (∀ x y : Expr, Expr.eq x y = true ↔ x = y) ∧
    Expr.eq (.And (.Var "a") (.Var "b")) (.And (.Var "b") (.Var "a")) = false := by
  refine ⟨?_, by decide⟩
  intro x
  induction x with
  | And l r ihl ihr => intro y; cases y <;> simp [Expr.eq, ihl, ihr]
  | Or l r ihl ihr => intro y; cases y <;> simp [Expr.eq, ihl, ihr]
  | Arrow l r ihl ihr => intro y; cases y <;> simp [Expr.eq, ihl, ihr]
  | Not l ihl => intro y; cases y <;> simp [Expr.eq, ihl]
  | Lit v => intro y; cases y <;> simp [Expr.eq]
  | Var n => intro y; cases y <;> simp [Expr.eq]

/-- Witness for claim C6 at the concrete pair `Var "a"`, `Var "a"`. -/
theorem eq_variant_shape_witness :
    Expr.eq (.Var "a") (.Var "a") = true ↔ (Expr.Var "a" : Expr) = .Var "a" :=
  eq_variant_shape.1 (.Var "a") (.Var "a")

/-- Claim C8: parsing `"a &&"` fails with a `ParseException` at the EOF
position (offset 4) whose expected list is the atom-start set
[TTRUE, TFALSE, TVAR, TLPAREN]. -/
theorem parse_missing_atom_error :
    parse "a &&" = .error (.parseErr ⟨4, [.TTRUE, .TFALSE, .TVAR, .TLPAREN], "<EOF>"⟩) := by
  decide

/-- Claim C9: parsing `"(a && b"` fails with a `ParseException` whose
expected list is exactly [TRPAREN]. -/
theorem parse_unmatched_paren_error :
    parse "(a && b" = .error (.parseErr ⟨7, [.TRPAREN], "<EOF>"⟩) := by
  decide

/-- Counterexample to claim C10: `parse "a)b"` is accepted (yielding
`Var "a"` and silently discarding the unconsumed tail, since TRPAREN is in
every follow set), yet wrapping that same input in parentheses is rejected
with a `ParseException` at the dangling `b`. -/
theorem parens_counterexample :
    parse "a)b" = .ok (.Var "a") ∧
    parse ("(" ++ "a)b" ++ ")") = .error (.parseErr ⟨3, followTerm, "b"⟩) := by
  refine ⟨by decide, by decide⟩

end PL

namespace PL

theorem assignRows_length (vs : List String) : (assignRows vs).length = 2 ^ vs.length := by
  induction vs with
  | nil => rfl
  | cons v vs ih => simp [assignRows, ih, pow_succ]; omega

theorem getElem_not_mem_take {vs : List String} {i : Nat} (hnd : vs.Nodup)
    (hi : i < vs.length) : vs[i] ∉ vs.take i := by
  have h2 : vs.take i ++ vs.drop i = vs := List.take_append_drop i vs
  have hnd2 : (vs.take i ++ vs.drop i).Nodup := by rw [h2]; exact hnd
  have hdisj := List.disjoint_of_nodup_append hnd2
  have hmem : vs[i] ∈ vs.drop i := by
    rw [List.drop_eq_getElem_cons hi]
    exact List.mem_cons_self _ _
  exact fun hmemtake => hdisj hmemtake hmem

theorem rec_eval_fst (e : Expr) (vs : List String) (hnd : vs.Nodup) :
    ∀ k i env, i + k = vs.length →
      (rec_eval e vs i env).map Prod.fst =
        (assignRows (vs.drop i)).map (fun tl => (vs.take i).map env ++ tl.map some) := by
  intro k
  induction k with
  | zero =>
    intro i env hik
    have hi : ¬ i < vs.length := by omega
    have hilen : i = vs.length := by omega
    rw [rec_eval, dif_neg hi]
    subst hilen
    simp [List.drop_length, List.take_length, assignRows]
  | succ k ihk =>
    intro i env hik
    have hi : i < vs.length := by omega
    rw [rec_eval, dif_pos hi, List.map_append,
      ihk (i + 1) _ (by omega), ihk (i + 1) _ (by omega),
      List.drop_eq_getElem_cons hi]
    simp only [assignRows, List.map_append, List.map_map]
    have htake : vs.take (i + 1) = vs.take i ++ [vs[i]] := by
      rw [List.take_succ]
      simp [List.getElem?_eq_getElem hi]
    have hmapT : ∀ b : Bool,
        (vs.take i).map (fun s => if s = vs[i] then some b else env s) = (vs.take i).map env := by
      intro b
      apply List.map_congr_left
      intro x hx
      have hne : x ≠ vs[i] := by
        intro hxe
        exact getElem_not_mem_take hnd hi (hxe ▸ hx)
      simp [hne]
    congr 1 <;>
    · apply List.map_congr_left
      intro tl _
      simp only [Function.comp]
      rw [htake, List.map_append, hmapT]
      simp [List.map_cons]

/-- Claim C7: for every expression with k distinct free variables, the
truth-table enumeration produces exactly 2 ^ k rows (so exactly one row when
k = 0), enumerating assignments over the lexicographically sorted variable
names depth-first with each variable's true branch fully enumerated before
its false branch (the order captured by `assignRows`). -/
theorem truth_table_spec (e : Expr) :
    (truth_table e).length = 2 ^ (e.vars).card ∧
    (truth_table e).map Prod.fst = (assignRows (sortedVars e)).map (List.map some) := by
  have hnd : (sortedVars e).Nodup := (e.vars).sort_nodup (· ≤ ·)
  have h := rec_eval_fst e (sortedVars e) hnd (sortedVars e).length 0 (fun _ => none) (by omega)
  simp only [List.drop_zero, List.take_zero, List.map_nil, List.nil_append] at h
  constructor
  · have hlen := congrArg List.length h
    simp only [List.length_map] at hlen
    rw [truth_table, hlen, assignRows_length, sortedVars, Finset.length_sort]
  · rw [truth_table, h]

end PL

namespace PL

/-- Relates a token list ending in the EOF sentinel to the same list (up to
token positions) whose sentinel is replaced by a closing parenthesis followed
by a new EOF sentinel.  The parser treats the two heads identically at every
point where it merely consults the follow set. -/
inductive Rel : List Token → List Token → Prop where
  | cons {a b : Token} {ts us : List Token} :
      a.ttype = b.ttype → a.val = b.val → Rel ts us → Rel (a :: ts) (b :: us)
  | stop {a b c : Token} :
      a.ttype = .TEOF → b.ttype = .TRPAREN → c.ttype = .TEOF → Rel [a] [b, c]

theorem rel_append {l1 l2 r1 r2 : List Token}
    (hf : List.Forall₂ (fun a b => a.ttype = b.ttype ∧ a.val = b.val) l1 l2)
    (hr : Rel r1 r2) : Rel (l1 ++ r1) (l2 ++ r2) := by
  induction hf with
  | nil => exact hr
  | cons hab _ ih => exact Rel.cons hab.1 hab.2 ih

theorem followCheck_rel {fl : List TType} (hEOF : TType.TEOF ∈ fl)
    (hRP : TType.TRPAREN ∈ fl) {e e2 : Expr} {ts us rem : List Token}
    (hrel : Rel ts us) (h : followCheck fl e ts = .ok (e2, rem)) :
    ∃ rem2, followCheck fl e us = .ok (e2, rem2) ∧ Rel rem rem2 := by
  cases hrel with
  | cons hty hval hrel2 =>
    rename_i a b ts2 us2
    simp only [followCheck] at h ⊢
    by_cases hin : a.ttype ∈ fl
    · rw [if_pos hin] at h
      rw [if_pos (hty ▸ hin)]
      obtain ⟨rfl, rfl⟩ : e = e2 ∧ a :: ts2 = rem := by
        simpa using h
      exact ⟨b :: us2, rfl, Rel.cons hty hval hrel2⟩
    · rw [if_neg hin] at h
      simp at h
  | stop ha hb hc =>
    rename_i a b c
    simp only [followCheck] at h ⊢
    rw [if_pos (by rw [ha]; exact hEOF)] at h
    rw [if_pos (by rw [hb]; exact hRP)]
    obtain ⟨rfl, rfl⟩ : e = e2 ∧ [a] = rem := by simpa using h
    exact ⟨[b, c], rfl, Rel.stop ha hb hc⟩

theorem parseRun_rel :
    ∀ (n : Nat) (f : PFun) {ts us rem : List Token} {e : Expr},
      Rel ts us → parseRun n f ts = .ok (e, rem) →
      ∃ rem2, parseRun n f us = .ok (e, rem2) ∧ Rel rem rem2 := by
  intro n
  induction n with
  | zero =>
    intro f ts us rem e _ hrun
    simp [parseRun] at hrun
  | succ n ih =>
    intro f ts us rem e hrel hrun
    simp only [parseRun] at hrun ⊢
    cases f with
    | pExpr =>
      cases h1 : parseRun n .pOr ts with
      | error err => simp [parseStep, h1, Except.bind, bind] at hrun
      | ok p =>
        obtain ⟨lhs0, ts1⟩ := p
        obtain ⟨us1, h1u, hrel1⟩ := ih .pOr hrel h1
        simp only [parseStep, h1, h1u, Except.bind, bind] at hrun ⊢
        cases hrel1 with
        | cons hty hval hrel2 =>
          rename_i a b ts2 us2
          simp only [peek, Except.bind, bind] at hrun ⊢
          by_cases harrow : a.ttype = .TARROW
          · rw [if_pos harrow] at hrun
            rw [if_pos (hty ▸ harrow)]
            simp only [List.tail_cons] at hrun ⊢
            cases h2 : parseRun n .pExpr ts2 with
            | error err => simp [h2, Except.bind, bind] at hrun
            | ok q =>
              obtain ⟨rhs, ts3⟩ := q
              obtain ⟨us3, h2u, hrel3⟩ := ih .pExpr hrel2 h2
              simp only [h2, h2u, Except.bind, bind] at hrun ⊢
              exact followCheck_rel (by decide) (by decide) hrel3 hrun
          · rw [if_neg harrow] at hrun
            rw [if_neg (fun hb => harrow (hty.trans hb))]
            exact followCheck_rel (by decide) (by decide) (Rel.cons hty hval hrel2) hrun
        | stop ha hb hc =>
          rename_i a b c
          simp only [peek, Except.bind, bind] at hrun ⊢
          rw [if_neg (by rw [ha]; decide)] at hrun
          rw [if_neg (by rw [hb]; decide)]
          exact followCheck_rel (by decide) (by decide) (Rel.stop ha hb hc) hrun
    | pOr =>
      cases h1 : parseRun n .pAnd ts with
      | error err => simp [parseStep, h1, Except.bind, bind] at hrun
      | ok p =>
        obtain ⟨lhs, ts1⟩ := p
        obtain ⟨us1, h1u, hrel1⟩ := ih .pAnd hrel h1
        cases h2 : parseRun n (.pOrLoop lhs) ts1 with
        | error err => simp [parseStep, h1, h2, Except.bind, bind] at hrun
        | ok q =>
          obtain ⟨lhs2, ts2⟩ := q
          obtain ⟨us2, h2u, hrel2⟩ := ih (.pOrLoop lhs) hrel1 h2
          simp only [parseStep, h1, h1u, h2, h2u, Except.bind, bind] at hrun ⊢
          exact followCheck_rel (by decide) (by decide) hrel2 hrun
    | pOrLoop lhs =>
      cases hrel with
      | cons hty hval hrel2 =>
        rename_i a b ts2 us2
        simp only [parseStep, peek, Except.bind, bind] at hrun ⊢
        by_cases hor : a.ttype = .TOR
        · rw [if_pos hor] at hrun
          rw [if_pos (hty ▸ hor)]
          simp only [List.tail_cons] at hrun ⊢
          cases h2 : parseRun n .pAnd ts2 with
          | error err => simp [h2, Except.bind, bind] at hrun
          | ok q =>
            obtain ⟨rhs, ts3⟩ := q
            obtain ⟨us3, h2u, hrel3⟩ := ih .pAnd hrel2 h2
            simp only [h2, h2u, Except.bind, bind] at hrun ⊢
            exact ih (.pOrLoop (.Or lhs rhs)) hrel3 hrun
        · rw [if_neg hor] at hrun
          rw [if_neg (fun hb => hor (hty.trans hb))]
          obtain ⟨rfl, rfl⟩ : lhs = e ∧ a :: ts2 = rem := by
            simpa [pure, Except.pure] using hrun
          exact ⟨b :: us2, rfl, Rel.cons hty hval hrel2⟩
      | stop ha hb hc =>
        rename_i a b c
        simp only [parseStep, peek, Except.bind, bind] at hrun ⊢
        rw [if_neg (by rw [ha]; decide)] at hrun
        rw [if_neg (by rw [hb]; decide)]
        obtain ⟨rfl, rfl⟩ : lhs = e ∧ [a] = rem := by
          simpa [pure, Except.pure] using hrun
        exact ⟨[b, c], rfl, Rel.stop ha hb hc⟩
    | pAnd =>
      cases h1 : parseRun n .pNot ts with
      | error err => simp [parseStep, h1, Except.bind, bind] at hrun
      | ok p =>
        obtain ⟨lhs, ts1⟩ := p
        obtain ⟨us1, h1u, hrel1⟩ := ih .pNot hrel h1
        cases h2 : parseRun n (.pAndLoop lhs) ts1 with
        | error err => simp [parseStep, h1, h2, Except.bind, bind] at hrun
        | ok q =>
          obtain ⟨lhs2, ts2⟩ := q
          obtain ⟨us2, h2u, hrel2⟩ := ih (.pAndLoop lhs) hrel1 h2
          simp only [parseStep, h1, h1u, h2, h2u, Except.bind, bind] at hrun ⊢
          exact followCheck_rel (by decide) (by decide) hrel2 hrun
    | pAndLoop lhs =>
      cases hrel with
      | cons hty hval hrel2 =>
        rename_i a b ts2 us2
        simp only [parseStep, peek, Except.bind, bind] at hrun ⊢
        by_cases hand : a.ttype = .TAND
        · rw [if_pos hand] at hrun
          rw [if_pos (hty ▸ hand)]
          simp only [List.tail_cons] at hrun ⊢
          cases h2 : parseRun n .pNot ts2 with
          | error err => simp [h2, Except.bind, bind] at hrun
          | ok q =>
            obtain ⟨rhs, ts3⟩ := q
            obtain ⟨us3, h2u, hrel3⟩ := ih .pNot hrel2 h2
            simp only [h2, h2u, Except.bind, bind] at hrun ⊢
            exact ih (.pAndLoop (.And lhs rhs)) hrel3 hrun
        · rw [if_neg hand] at hrun
          rw [if_neg (fun hb => hand (hty.trans hb))]
          obtain ⟨rfl, rfl⟩ : lhs = e ∧ a :: ts2 = rem := by
            simpa [pure, Except.pure] using hrun
          exact ⟨b :: us2, rfl, Rel.cons hty hval hrel2⟩
      | stop ha hb hc =>
        rename_i a b c
        simp only [parseStep, peek, Except.bind, bind] at hrun ⊢
        rw [if_neg (by rw [ha]; decide)] at hrun
        rw [if_neg (by rw [hb]; decide)]
        obtain ⟨rfl, rfl⟩ : lhs = e ∧ [a] = rem := by
          simpa [pure, Except.pure] using hrun
        exact ⟨[b, c], rfl, Rel.stop ha hb hc⟩
    | pNot =>
      cases hrel with
      | cons hty hval hrel2 =>
        rename_i a b ts2 us2
        simp only [parseStep, peek, Except.bind, bind] at hrun ⊢
        by_cases hnot : a.ttype = .TNOT
        · rw [if_pos hnot] at hrun
          rw [if_pos (hty ▸ hnot)]
          simp only [List.tail_cons] at hrun ⊢
          cases h2 : parseRun n .pNot ts2 with
          | error err => simp [h2, Except.bind, bind] at hrun
          | ok q =>
            obtain ⟨ne, ts3⟩ := q
            obtain ⟨us3, h2u, hrel3⟩ := ih .pNot hrel2 h2
            simp only [h2, h2u, Except.bind, bind] at hrun ⊢
            exact followCheck_rel (by decide) (by decide) hrel3 hrun
        · rw [if_neg hnot] at hrun
          rw [if_neg (fun hb => hnot (hty.trans hb))]
          cases h2 : parseRun n .pTerm (a :: ts2) with
          | error err => simp [h2, Except.bind, bind] at hrun
          | ok q =>
            obtain ⟨e0, ts3⟩ := q
            obtain ⟨us3, h2u, hrel3⟩ := ih .pTerm (Rel.cons hty hval hrel2) h2
            simp only [h2, h2u, Except.bind, bind] at hrun ⊢
            exact followCheck_rel (by decide) (by decide) hrel3 hrun
      | stop ha hb hc =>
        rename_i a b c
        simp only [parseStep, peek, Except.bind, bind] at hrun ⊢
        rw [if_neg (by rw [ha]; decide)] at hrun
        rw [if_neg (by rw [hb]; decide)]
        cases h2 : parseRun n .pTerm [a] with
        | error err => simp [h2, Except.bind, bind] at hrun
        | ok q =>
          obtain ⟨e0, ts3⟩ := q
          obtain ⟨us3, h2u, hrel3⟩ := ih .pTerm (Rel.stop ha hb hc) h2
          simp only [h2, h2u, Except.bind, bind] at hrun ⊢
          exact followCheck_rel (by decide) (by decide) hrel3 hrun
    | pTerm =>
      cases hrel with
      | cons hty hval hrel2 =>
        rename_i a b ts2 us2
        simp only [parseStep, peek, Except.bind, bind] at hrun ⊢
        by_cases hv : a.ttype = .TVAR
        · rw [if_pos hv] at hrun
          rw [if_pos (hty ▸ hv)]
          simp only [List.tail_cons] at hrun ⊢
          rw [← hval]
          exact followCheck_rel (by decide) (by decide) hrel2 hrun
        · by_cases htr : a.ttype = .TTRUE
          · rw [if_neg hv, if_pos htr] at hrun
            rw [if_neg (fun hb => hv (hty.trans hb)), if_pos (hty ▸ htr)]
            simp only [List.tail_cons] at hrun ⊢
            exact followCheck_rel (by decide) (by decide) hrel2 hrun
          · by_cases hfa : a.ttype = .TFALSE
            · rw [if_neg hv, if_neg htr, if_pos hfa] at hrun
              rw [if_neg (fun hb => hv (hty.trans hb)),
                if_neg (fun hb => htr (hty.trans hb)), if_pos (hty ▸ hfa)]
              simp only [List.tail_cons] at hrun ⊢
              exact followCheck_rel (by decide) (by decide) hrel2 hrun
            · by_cases hl : a.ttype = .TLPAREN
              · rw [if_neg hv, if_neg htr, if_neg hfa, if_pos hl] at hrun
                rw [if_neg (fun hb => hv (hty.trans hb)),
                  if_neg (fun hb => htr (hty.trans hb)),
                  if_neg (fun hb => hfa (hty.trans hb)), if_pos (hty ▸ hl)]
                simp only [List.tail_cons] at hrun ⊢
                cases h2 : parseRun n .pExpr ts2 with
                | error err => simp [h2, Except.bind, bind] at hrun
                | ok q =>
                  obtain ⟨e0, ts3⟩ := q
                  obtain ⟨us3, h2u, hrel3⟩ := ih .pExpr hrel2 h2
                  simp only [h2, h2u, Except.bind, bind] at hrun ⊢
                  cases hrel3 with
                  | cons hty2 hval2 hrel4 =>
                    rename_i a2 b2 ts4 us4
                    simp only [peek, Except.bind, bind] at hrun ⊢
                    by_cases hrp : a2.ttype = .TRPAREN
                    · rw [if_pos hrp] at hrun
                      rw [if_pos (hty2 ▸ hrp)]
                      simp only [List.tail_cons] at hrun ⊢
                      exact followCheck_rel (by decide) (by decide) hrel4 hrun
                    · rw [if_neg hrp] at hrun
                      simp at hrun
                  | stop ha2 hb2 hc2 =>
                    rename_i a2 b2 c2
                    simp only [peek, Except.bind, bind] at hrun
                    rw [if_neg (by rw [ha2]; decide)] at hrun
                    simp at hrun
              · rw [if_neg hv, if_neg htr, if_neg hfa, if_neg hl] at hrun
                simp at hrun
      | stop ha hb hc =>
        rename_i a b c
        simp only [parseStep, peek, Except.bind, bind] at hrun
        rw [if_neg (by rw [ha]; decide), if_neg (by rw [ha]; decide),
          if_neg (by rw [ha]; decide), if_neg (by rw [ha]; decide)] at hrun
        simp at hrun

theorem parseRun_mono :
    ∀ (n m : Nat) (f : PFun) (ts : List Token) (r : Expr × List Token),
      n ≤ m → parseRun n f ts = .ok r → parseRun m f ts = .ok r := by
  intro n
  induction n with
  | zero =>
    intro m f ts r _ hrun
    simp [parseRun] at hrun
  | succ n ih =>
    intro m f ts r hle hrun
    obtain ⟨m2, rfl⟩ : ∃ q, m = q + 1 := ⟨m - 1, by omega⟩
    have hnm : n ≤ m2 := by omega
    simp only [parseRun] at hrun ⊢
    cases f with
    | pExpr =>
      cases h1 : parseRun n .pOr ts with
      | error err => simp [parseStep, h1, Except.bind, bind] at hrun
      | ok p =>
        obtain ⟨lhs0, ts1⟩ := p
        have h1m := ih m2 .pOr ts _ hnm h1
        simp only [parseStep, h1, h1m, Except.bind, bind] at hrun ⊢
        cases ts1 with
        | nil => simp [peek, Except.bind, bind] at hrun
        | cons a ts2 =>
          simp only [peek, Except.bind, bind] at hrun ⊢
          by_cases harrow : a.ttype = .TARROW
          · rw [if_pos harrow] at hrun ⊢
            simp only [List.tail_cons] at hrun ⊢
            cases h2 : parseRun n .pExpr ts2 with
            | error err => simp [h2, Except.bind, bind] at hrun
            | ok q =>
              have h2m := ih m2 .pExpr ts2 _ hnm h2
              simp only [h2, h2m, Except.bind, bind] at hrun ⊢
              exact hrun
          · rw [if_neg harrow] at hrun ⊢
            exact hrun
    | pOr =>
      cases h1 : parseRun n .pAnd ts with
      | error err => simp [parseStep, h1, Except.bind, bind] at hrun
      | ok p =>
        obtain ⟨lhs, ts1⟩ := p
        have h1m := ih m2 .pAnd ts _ hnm h1
        cases h2 : parseRun n (.pOrLoop lhs) ts1 with
        | error err => simp [parseStep, h1, h2, Except.bind, bind] at hrun
        | ok q =>
          have h2m := ih m2 (.pOrLoop lhs) ts1 _ hnm h2
          simp only [parseStep, h1, h1m, h2, h2m, Except.bind, bind] at hrun ⊢
          exact hrun
    | pOrLoop lhs =>
      cases ts with
      | nil => simp [parseStep, peek, Except.bind, bind] at hrun
      | cons a ts2 =>
        simp only [parseStep, peek, Except.bind, bind] at hrun ⊢
        by_cases hor : a.ttype = .TOR
        · rw [if_pos hor] at hrun ⊢
          simp only [List.tail_cons] at hrun ⊢
          cases h2 : parseRun n .pAnd ts2 with
          | error err => simp [h2, Except.bind, bind] at hrun
          | ok q =>
            obtain ⟨rhs, ts3⟩ := q
            have h2m := ih m2 .pAnd ts2 _ hnm h2
            simp only [h2, h2m, Except.bind, bind] at hrun ⊢
            exact ih m2 (.pOrLoop (.Or lhs rhs)) ts3 _ hnm hrun
        · rw [if_neg hor] at hrun ⊢
          exact hrun
    | pAnd =>
      cases h1 : parseRun n .pNot ts with
      | error err => simp [parseStep, h1, Except.bind, bind] at hrun
      | ok p =>
        obtain ⟨lhs, ts1⟩ := p
        have h1m := ih m2 .pNot ts _ hnm h1
        cases h2 : parseRun n (.pAndLoop lhs) ts1 with
        | error err => simp [parseStep, h1, h2, Except.bind, bind] at hrun
        | ok q =>
          have h2m := ih m2 (.pAndLoop lhs) ts1 _ hnm h2
          simp only [parseStep, h1, h1m, h2, h2m, Except.bind, bind] at hrun ⊢
          exact hrun
    | pAndLoop lhs =>
      cases ts with
      | nil => simp [parseStep, peek, Except.bind, bind] at hrun
      | cons a ts2 =>
        simp only [parseStep, peek, Except.bind, bind] at hrun ⊢
        by_cases hand : a.ttype = .TAND
        · rw [if_pos hand] at hrun ⊢
          simp only [List.tail_cons] at hrun ⊢
          cases h2 : parseRun n .pNot ts2 with
          | error err => simp [h2, Except.bind, bind] at hrun
          | ok q =>
            obtain ⟨rhs, ts3⟩ := q
            have h2m := ih m2 .pNot ts2 _ hnm h2
            simp only [h2, h2m, Except.bind, bind] at hrun ⊢
            exact ih m2 (.pAndLoop (.And lhs rhs)) ts3 _ hnm hrun
        · rw [if_neg hand] at hrun ⊢
          exact hrun
    | pNot =>
      cases ts with
      | nil => simp [parseStep, peek, Except.bind, bind] at hrun
      | cons a ts2 =>
        simp only [parseStep, peek, Except.bind, bind] at hrun ⊢
        by_cases hnot : a.ttype = .TNOT
        · rw [if_pos hnot] at hrun ⊢
          simp only [List.tail_cons] at hrun ⊢
          cases h2 : parseRun n .pNot ts2 with
          | error err => simp [h2, Except.bind, bind] at hrun
          | ok q =>
            have h2m := ih m2 .pNot ts2 _ hnm h2
            simp only [h2, h2m, Except.bind, bind] at hrun ⊢
            exact hrun
        · rw [if_neg hnot] at hrun ⊢
          cases h2 : parseRun n .pTerm (a :: ts2) with
          | error err => simp [h2, Except.bind, bind] at hrun
          | ok q =>
            have h2m := ih m2 .pTerm (a :: ts2) _ hnm h2
            simp only [h2, h2m, Except.bind, bind] at hrun ⊢
            exact hrun
    | pTerm =>
      cases ts with
      | nil => simp [parseStep, peek, Except.bind, bind] at hrun
      | cons a ts2 =>
        simp only [parseStep, peek, Except.bind, bind] at hrun ⊢
        by_cases hv : a.ttype = .TVAR
        · rw [if_pos hv] at hrun ⊢
          exact hrun
        · by_cases htr : a.ttype = .TTRUE
          · rw [if_neg hv, if_pos htr] at hrun ⊢
            exact hrun
          · by_cases hfa : a.ttype = .TFALSE
            · rw [if_neg hv, if_neg htr, if_pos hfa] at hrun ⊢
              exact hrun
            · by_cases hl : a.ttype = .TLPAREN
              · rw [if_neg hv, if_neg htr, if_neg hfa, if_pos hl] at hrun ⊢
                simp only [List.tail_cons] at hrun ⊢
                cases h2 : parseRun n .pExpr ts2 with
                | error err => simp [h2, Except.bind, bind] at hrun
                | ok q =>
                  have h2m := ih m2 .pExpr ts2 _ hnm h2
                  simp only [h2, h2m, Except.bind, bind] at hrun ⊢
                  exact hrun
              · rw [if_neg hv, if_neg htr, if_neg hfa, if_neg hl] at hrun ⊢
                exact hrun

theorem takeWhile_append_single {p : Char → Bool} {x : Char} (hx : p x = false) :
    ∀ l : List Char, (l ++ [x]).takeWhile p = l.takeWhile p := by
  intro l
  induction l with
  | nil => simp [List.takeWhile_cons, hx]
  | cons a l ih =>
    by_cases hpa : p a <;> simp [List.takeWhile_cons, hpa, ih]

theorem dropWhile_append_single {p : Char → Bool} {x : Char} (hx : p x = false) :
    ∀ l : List Char, (l ++ [x]).dropWhile p = l.dropWhile p ++ [x] := by
  intro l
  induction l with
  | nil => simp [List.dropWhile_cons, hx]
  | cons a l ih =>
    by_cases hpa : p a <;> simp [List.dropWhile_cons, hpa, ih]

theorem takeWhile_dropWhile_length (p : Char → Bool) (l : List Char) :
    (l.takeWhile p).length + (l.dropWhile p).length = l.length := by
  conv_rhs => rw [← List.takeWhile_append_dropWhile (p := p) (l := l)]
  rw [List.length_append]

theorem lexAux_append :
    ∀ (fuel : Nat) (cs : List Char) (i j : Nat) (ts : List Token),
      lexAux fuel cs i = .ok ts →
      ∃ front front2,
        ts = front ++ [⟨.TEOF, i + cs.length, "<EOF>"⟩] ∧
        lexAux (fuel + 1) (cs ++ [')']) j =
          .ok (front2 ++
            [⟨.TRPAREN, j + cs.length, ")"⟩, ⟨.TEOF, j + cs.length + 1, "<EOF>"⟩]) ∧
        List.Forall₂ (fun a b => a.ttype = b.ttype ∧ a.val = b.val) front front2 := by
  intro fuel
  induction fuel with
  | zero =>
    intro cs i j ts h
    cases cs with
    | nil =>
      simp only [lexAux, Except.ok.injEq] at h
      refine ⟨[], [], ?_, ?_, List.Forall₂.nil⟩
      · simp [← h]
      · simp [lexAux, lexStep, Except.map]
    | cons c rest => simp [lexAux] at h
  | succ fuel ih =>
    intro cs i j ts h
    cases cs with
    | nil =>
      simp only [lexAux, Except.ok.injEq] at h
      refine ⟨[], [], ?_, ?_, List.Forall₂.nil⟩
      · simp [← h]
      · simp [lexAux, lexStep, Except.map]
    | cons c rest =>
      simp only [lexAux] at h
      rw [List.cons_append]
      by_cases h1 : (c = ' ' ∨ c = '\r' ∨ c = '\n' ∨ c = '\t')
      · have e1 : i + (c :: rest).length = i + 1 + rest.length := by
          simp [List.length_cons]; omega
        have e2 : j + (c :: rest).length = j + 1 + rest.length := by
          simp [List.length_cons]; omega
        rw [e1, e2]
        simp only [lexStep, if_pos h1] at h
        obtain ⟨front, front2, hts, happ, hff⟩ := ih rest (i + 1) (j + 1) ts h
        refine ⟨front, front2, hts, ?_, hff⟩
        simp only [lexAux, lexStep, if_pos h1]
        exact happ
      · by_cases h2 : c = 'T'
        · have e1 : i + (c :: rest).length = i + 1 + rest.length := by
            simp [List.length_cons]; omega
          have e2 : j + (c :: rest).length = j + 1 + rest.length := by
            simp [List.length_cons]; omega
          rw [e1, e2]
          simp only [lexStep, if_neg h1, if_pos h2] at h
          cases hin : lexAux fuel rest (i + 1) with
          | error err => rw [hin] at h; simp [Except.map] at h
          | ok ts0 =>
            rw [hin] at h
            simp only [Except.map, Except.ok.injEq] at h
            obtain ⟨front, front2, hts, happ, hff⟩ := ih rest (i + 1) (j + 1) ts0 hin
            refine ⟨⟨.TTRUE, i, "T"⟩ :: front, ⟨.TTRUE, j, "T"⟩ :: front2, ?_, ?_,
              List.Forall₂.cons ⟨rfl, rfl⟩ hff⟩
            · rw [← h, hts]; simp
            · simp only [lexAux, lexStep, if_neg h1, if_pos h2]
              rw [happ]
              simp [Except.map]
        · by_cases h3 : c = 'F'
          · have e1 : i + (c :: rest).length = i + 1 + rest.length := by
              simp [List.length_cons]; omega
            have e2 : j + (c :: rest).length = j + 1 + rest.length := by
              simp [List.length_cons]; omega
            rw [e1, e2]
            simp only [lexStep, if_neg h1, if_neg h2, if_pos h3] at h
            cases hin : lexAux fuel rest (i + 1) with
            | error err => rw [hin] at h; simp [Except.map] at h
            | ok ts0 =>
              rw [hin] at h
              simp only [Except.map, Except.ok.injEq] at h
              obtain ⟨front, front2, hts, happ, hff⟩ := ih rest (i + 1) (j + 1) ts0 hin
              refine ⟨⟨.TFALSE, i, "F"⟩ :: front, ⟨.TFALSE, j, "F"⟩ :: front2, ?_, ?_,
                List.Forall₂.cons ⟨rfl, rfl⟩ hff⟩
              · rw [← h, hts]; simp
              · simp only [lexAux, lexStep, if_neg h1, if_neg h2, if_pos h3]
                rw [happ]
                simp [Except.map]
          · by_cases h4 : c = '~'
            · have e1 : i + (c :: rest).length = i + 1 + rest.length := by
                simp [List.length_cons]; omega
              have e2 : j + (c :: rest).length = j + 1 + rest.length := by
                simp [List.length_cons]; omega
              rw [e1, e2]
              simp only [lexStep, if_neg h1, if_neg h2, if_neg h3, if_pos h4] at h
              cases hin : lexAux fuel rest (i + 1) with
              | error err => rw [hin] at h; simp [Except.map] at h
              | ok ts0 =>
                rw [hin] at h
                simp only [Except.map, Except.ok.injEq] at h
                obtain ⟨front, front2, hts, happ, hff⟩ := ih rest (i + 1) (j + 1) ts0 hin
                refine ⟨⟨.TNOT, i, "~"⟩ :: front, ⟨.TNOT, j, "~"⟩ :: front2, ?_, ?_,
                  List.Forall₂.cons ⟨rfl, rfl⟩ hff⟩
                · rw [← h, hts]; simp
                · simp only [lexAux, lexStep, if_neg h1, if_neg h2, if_neg h3, if_pos h4]
                  rw [happ]
                  simp [Except.map]
            · by_cases h5 : c = '('
              · have e1 : i + (c :: rest).length = i + 1 + rest.length := by
                  simp [List.length_cons]; omega
                have e2 : j + (c :: rest).length = j + 1 + rest.length := by
                  simp [List.length_cons]; omega
                rw [e1, e2]
                simp only [lexStep, if_neg h1, if_neg h2, if_neg h3, if_neg h4, if_pos h5] at h
                cases hin : lexAux fuel rest (i + 1) with
                | error err => rw [hin] at h; simp [Except.map] at h
                | ok ts0 =>
                  rw [hin] at h
                  simp only [Except.map, Except.ok.injEq] at h
                  obtain ⟨front, front2, hts, happ, hff⟩ := ih rest (i + 1) (j + 1) ts0 hin
                  refine ⟨⟨.TLPAREN, i, "("⟩ :: front, ⟨.TLPAREN, j, "("⟩ :: front2, ?_, ?_,
                    List.Forall₂.cons ⟨rfl, rfl⟩ hff⟩
                  · rw [← h, hts]; simp
                  · simp only [lexAux, lexStep, if_neg h1, if_neg h2, if_neg h3, if_neg h4, if_pos h5]
                    rw [happ]
                    simp [Except.map]
              · by_cases h6 : c = ')'
                · have e1 : i + (c :: rest).length = i + 1 + rest.length := by
                    simp [List.length_cons]; omega
                  have e2 : j + (c :: rest).length = j + 1 + rest.length := by
                    simp [List.length_cons]; omega
                  rw [e1, e2]
                  simp only [lexStep, if_neg h1, if_neg h2, if_neg h3, if_neg h4, if_neg h5, if_pos h6] at h
                  cases hin : lexAux fuel rest (i + 1) with
                  | error err => rw [hin] at h; simp [Except.map] at h
                  | ok ts0 =>
                    rw [hin] at h
                    simp only [Except.map, Except.ok.injEq] at h
                    obtain ⟨front, front2, hts, happ, hff⟩ := ih rest (i + 1) (j + 1) ts0 hin
                    refine ⟨⟨.TRPAREN, i, ")"⟩ :: front, ⟨.TRPAREN, j, ")"⟩ :: front2, ?_, ?_,
                      List.Forall₂.cons ⟨rfl, rfl⟩ hff⟩
                    · rw [← h, hts]; simp
                    · simp only [lexAux, lexStep, if_neg h1, if_neg h2, if_neg h3, if_neg h4, if_neg h5, if_pos h6]
                      rw [happ]
                      simp [Except.map]
                · by_cases h7 : (c = '|' ∧ rest.head? = some '|')
                  · obtain ⟨rfl, hh⟩ := h7
                    cases rest with
                    | nil => simp at hh
                    | cons r0 r2 =>
                      obtain rfl : r0 = '|' := by simpa using hh
                      have e1 : i + ('|' :: '|' :: r2).length = i + 2 + r2.length := by
                        simp; omega
                      have e2 : j + ('|' :: '|' :: r2).length = j + 2 + r2.length := by
                        simp; omega
                      rw [e1, e2]
                      simp [lexStep] at h
                      cases hin : lexAux fuel r2 (i + 2) with
                      | error err => rw [hin] at h; simp [Except.map] at h
                      | ok ts0 =>
                        rw [hin] at h
                        simp only [Except.map, Except.ok.injEq] at h
                        obtain ⟨front, front2, hts, happ, hff⟩ := ih r2 (i + 2) (j + 2) ts0 hin
                        refine ⟨⟨.TOR, i, "||"⟩ :: front, ⟨.TOR, j, "||"⟩ :: front2, ?_, ?_,
                          List.Forall₂.cons ⟨rfl, rfl⟩ hff⟩
                        · rw [← h, hts]; simp
                        · simp only [lexAux]
                          simp [lexStep, List.cons_append]
                          rw [happ]
                          simp [Except.map]
                  · by_cases h8 : (c = '&' ∧ rest.head? = some '&')
                    · obtain ⟨rfl, hh⟩ := h8
                      cases rest with
                      | nil => simp at hh
                      | cons r0 r2 =>
                        obtain rfl : r0 = '&' := by simpa using hh
                        have e1 : i + ('&' :: '&' :: r2).length = i + 2 + r2.length := by
                          simp; omega
                        have e2 : j + ('&' :: '&' :: r2).length = j + 2 + r2.length := by
                          simp; omega
                        rw [e1, e2]
                        simp [lexStep] at h
                        cases hin : lexAux fuel r2 (i + 2) with
                        | error err => rw [hin] at h; simp [Except.map] at h
                        | ok ts0 =>
                          rw [hin] at h
                          simp only [Except.map, Except.ok.injEq] at h
                          obtain ⟨front, front2, hts, happ, hff⟩ := ih r2 (i + 2) (j + 2) ts0 hin
                          refine ⟨⟨.TAND, i, "&&"⟩ :: front, ⟨.TAND, j, "&&"⟩ :: front2, ?_, ?_,
                            List.Forall₂.cons ⟨rfl, rfl⟩ hff⟩
                          · rw [← h, hts]; simp
                          · simp only [lexAux]
                            simp [lexStep, List.cons_append]
                            rw [happ]
                            simp [Except.map]
                    · by_cases h9 : (c = '-' ∧ rest.head? = some '>')
                      · obtain ⟨rfl, hh⟩ := h9
                        cases rest with
                        | nil => simp at hh
                        | cons r0 r2 =>
                          obtain rfl : r0 = '>' := by simpa using hh
                          have e1 : i + ('-' :: '>' :: r2).length = i + 2 + r2.length := by
                            simp; omega
                          have e2 : j + ('-' :: '>' :: r2).length = j + 2 + r2.length := by
                            simp; omega
                          rw [e1, e2]
                          simp [lexStep] at h
                          cases hin : lexAux fuel r2 (i + 2) with
                          | error err => rw [hin] at h; simp [Except.map] at h
                          | ok ts0 =>
                            rw [hin] at h
                            simp only [Except.map, Except.ok.injEq] at h
                            obtain ⟨front, front2, hts, happ, hff⟩ := ih r2 (i + 2) (j + 2) ts0 hin
                            refine ⟨⟨.TARROW, i, "->"⟩ :: front, ⟨.TARROW, j, "->"⟩ :: front2, ?_, ?_,
                              List.Forall₂.cons ⟨rfl, rfl⟩ hff⟩
                            · rw [← h, hts]; simp
                            · simp only [lexAux]
                              simp [lexStep, List.cons_append]
                              rw [happ]
                              simp [Except.map]
                      · by_cases h10 : alpha c = true
                        · have hlen := takeWhile_dropWhile_length alpha rest
                          have e1 : i + (c :: rest).length =
                              i + 1 + (rest.takeWhile alpha).length + (rest.dropWhile alpha).length := by
                            simp [List.length_cons]; omega
                          have e2 : j + (c :: rest).length =
                              j + 1 + (rest.takeWhile alpha).length + (rest.dropWhile alpha).length := by
                            simp [List.length_cons]; omega
                          rw [e1, e2]
                          simp only [lexStep, if_neg h1, if_neg h2, if_neg h3, if_neg h4, if_neg h5, if_neg h6, if_neg h7, if_neg h8, if_neg h9, if_pos h10] at h
                          cases hin : lexAux fuel (rest.dropWhile alpha) (i + 1 + (rest.takeWhile alpha).length) with
                          | error err => rw [hin] at h; simp [Except.map] at h
                          | ok ts0 =>
                            rw [hin] at h
                            simp only [Except.map, Except.ok.injEq] at h
                            obtain ⟨front, front2, hts, happ, hff⟩ :=
                              ih (rest.dropWhile alpha) (i + 1 + (rest.takeWhile alpha).length)
                                (j + 1 + (rest.takeWhile alpha).length) ts0 hin
                            refine ⟨⟨.TVAR, i, ⟨c :: rest.takeWhile alpha⟩⟩ :: front,
                              ⟨.TVAR, j, ⟨c :: rest.takeWhile alpha⟩⟩ :: front2, ?_, ?_,
                              List.Forall₂.cons ⟨rfl, rfl⟩ hff⟩
                            · rw [← h, hts]; simp
                            · have g7 : ¬(c = '|' ∧ (rest ++ [')']).head? = some '|') := by
                                rintro ⟨rfl, -⟩; exact absurd h10 (by decide)
                              have g8 : ¬(c = '&' ∧ (rest ++ [')']).head? = some '&') := by
                                rintro ⟨rfl, -⟩; exact absurd h10 (by decide)
                              have g9 : ¬(c = '-' ∧ (rest ++ [')']).head? = some '>') := by
                                rintro ⟨rfl, -⟩; exact absurd h10 (by decide)
                              simp only [lexAux, lexStep, if_neg h1, if_neg h2, if_neg h3, if_neg h4,
                                if_neg h5, if_neg h6, if_neg g7, if_neg g8, if_neg g9, if_pos h10]
                              rw [takeWhile_append_single (by decide) rest,
                                dropWhile_append_single (by decide) rest]
                              rw [happ]
                              simp [Except.map]
                        · simp only [lexStep, if_neg h1, if_neg h2, if_neg h3, if_neg h4, if_neg h5, if_neg h6, if_neg h7, if_neg h8, if_neg h9, if_neg h10] at h
                          exact absurd h (by simp)


theorem parseRun_paren_wrap (n : Nat) (lpTok u v : Token) (rest : List Token) (e : Expr)
    (hlp : lpTok.ttype = .TLPAREN)
    (hinner : parseRun (n + 1) .pExpr rest = .ok (e, [u, v]))
    (hu : u.ttype = .TRPAREN) (hv : v.ttype = .TEOF) :
    parseRun (n + 6) .pExpr (lpTok :: rest) = .ok (e, [v]) := by
  have hterm : parseRun (n + 2) .pTerm (lpTok :: rest) = .ok (e, [v]) := by
    show parseStep (parseRun (n + 1)) .pTerm (lpTok :: rest) = .ok (e, [v])
    simp [parseStep, peek, Except.bind, bind, hlp, hinner, hu, hv, followCheck, followTerm]
  have hnot : parseRun (n + 3) .pNot (lpTok :: rest) = .ok (e, [v]) := by
    show parseStep (parseRun (n + 2)) .pNot (lpTok :: rest) = .ok (e, [v])
    simp [parseStep, peek, Except.bind, bind, hlp, hterm, hv, followCheck, followNot]
  have handloop : parseRun (n + 3) (.pAndLoop e) [v] = .ok (e, [v]) := by
    show parseStep (parseRun (n + 2)) (.pAndLoop e) [v] = .ok (e, [v])
    simp [parseStep, peek, Except.bind, bind, hv, pure, Except.pure]
  have hand : parseRun (n + 4) .pAnd (lpTok :: rest) = .ok (e, [v]) := by
    show parseStep (parseRun (n + 3)) .pAnd (lpTok :: rest) = .ok (e, [v])
    simp [parseStep, Except.bind, bind, hnot, handloop, hv, followCheck, followAnd]
  have horloop : parseRun (n + 4) (.pOrLoop e) [v] = .ok (e, [v]) := by
    show parseStep (parseRun (n + 3)) (.pOrLoop e) [v] = .ok (e, [v])
    simp [parseStep, peek, Except.bind, bind, hv, pure, Except.pure]
  have hor : parseRun (n + 5) .pOr (lpTok :: rest) = .ok (e, [v]) := by
    show parseStep (parseRun (n + 4)) .pOr (lpTok :: rest) = .ok (e, [v])
    simp [parseStep, Except.bind, bind, hand, horloop, hv, followCheck, followOr]
  show parseStep (parseRun (n + 5)) .pExpr (lpTok :: rest) = .ok (e, [v])
  simp [parseStep, peek, Except.bind, bind, hor, hv, followCheck, followExpr]

/-- Claim C10 (amended): for every input text s that parse accepts with the
whole input consumed — the token list remaining after `expr` is the EOF
sentinel alone — `parse ("(" ++ s ++ ")")` also succeeds and returns an
expression structurally equal to `parse s`. -/
theorem parens_transparent (s : String) (ts : List Token) (e : Expr) (t : Token)
    (hlex : lex s = .ok ts)
    (hrun : parseRun (8 * s.length + 8) .pExpr ts = .ok (e, [t]))
    (heof : t.ttype = .TEOF) :
    parse ("(" ++ s ++ ")") = .ok e ∧ parse s = .ok e := by
  have hright : parse s = .ok e := by
    simp [parse, hlex, hrun]
  refine ⟨?_, hright⟩
  have hcs : ("(" ++ s ++ ")").toList = '(' :: (s.toList ++ [')']) := rfl
  obtain ⟨front, front2, hts, happ, hff⟩ :=
    lexAux_append (s.length + 1) s.toList 0 1 ts hlex
  rw [hts] at hrun
  have hrel : Rel (front ++ [⟨.TEOF, 0 + s.toList.length, "<EOF>"⟩])
      (front2 ++ [⟨.TRPAREN, 1 + s.toList.length, ")"⟩,
        ⟨.TEOF, 1 + s.toList.length + 1, "<EOF>"⟩]) :=
    rel_append hff (Rel.stop rfl rfl rfl)
  obtain ⟨rem2, hrun2, hrel2⟩ := parseRun_rel _ .pExpr hrel hrun
  obtain ⟨u, v, rfl, hu, hv⟩ :
      ∃ u v, rem2 = [u, v] ∧ u.ttype = .TRPAREN ∧ v.ttype = .TEOF := by
    cases hrel2 with
    | cons h1 h2 h3 => cases h3
    | stop ha hb hc => exact ⟨_, _, rfl, hb, hc⟩
  have hrun3 := parseRun_mono _ (8 * s.length + 18 + 1) .pExpr _ _ (by omega) hrun2
  have hwrap := parseRun_paren_wrap (8 * s.length + 18) ⟨.TLPAREN, 0, "("⟩ u v _ e rfl hrun3 hu hv
  have hlen2 : ("(" ++ s ++ ")").length = s.length + 2 := by
    show ('(' :: (s.toList ++ [')'])).length = s.toList.length + 2
    simp
  have hlex2 : lex ("(" ++ s ++ ")") =
      .ok (⟨.TLPAREN, 0, "("⟩ :: (front2 ++ [⟨.TRPAREN, 1 + s.toList.length, ")"⟩,
        ⟨.TEOF, 1 + s.toList.length + 1, "<EOF>"⟩])) := by
    show lexAux (("(" ++ s ++ ")").length + 1) ("(" ++ s ++ ")").toList 0 = _
    rw [hcs, hlen2]
    show lexStep (lexAux (s.length + 2)) '(' (s.toList ++ [')']) 0 = _
    simp only [lexStep]
    rw [if_neg (by decide), if_neg (by decide), if_neg (by decide), if_neg (by decide),
      if_pos trivial]
    rw [show (0 : Nat) + 1 = 1 from rfl, happ]
    simp [Except.map]
  have hfuel : 8 * ("(" ++ s ++ ")").length + 8 = 8 * s.length + 18 + 6 := by
    rw [hlen2]; omega
  simp only [parse, hlex2, hfuel]
  rw [hwrap]

/-- Witness for claim C10 (amended) at the concrete input `"a"`. -/
theorem parens_transparent_witness :
    parse ("(" ++ "a" ++ ")") = .ok (Expr.Var "a") ∧ parse "a" = .ok (Expr.Var "a") :=
  parens_transparent "a" [⟨.TVAR, 0, "a"⟩, ⟨.TEOF, 1, "<EOF>"⟩] (.Var "a") ⟨.TEOF, 1, "<EOF>"⟩
    (by decide) (by decide) rfl

end PL
